import Mathlib

/-
  Verification development for orion.core.io.experiment_branch_builder:
  the conflict-detection-and-resolution engine for branching experiment
  configurations.

  Shallow embedding conventions:
  - names and command-line arguments are lists of characters (`Str`);
  - Python object identity of `Conflict` instances is modelled by the index
    of the conflict in the builder's conflict list; the operation ledger
    stores indices;
  - the `operations` dictionary is an insertion-ordered association list;
  - functions that can raise return `Option` or `Except Unit`.
-/

namespace Orion

abbrev Str := List Char

/-- Dimension of a parameter space: a name (path-like, with a leading '/')
plus an externally defined declaration abstracted as a natural number.  Two
dimensions are equal exactly when name and declaration match. -/
structure Dimension where
  name : Str
  declaration : Nat
deriving DecidableEq

/-- Conflict status tag: 'new', 'changed' or 'missing'. -/
inductive Status where
  | new
  | changed
  | missing
deriving DecidableEq

/-- Conflict: a status together with a dimension and a mutable resolved flag
(`is_solved`, initially false). -/
structure Conflict where
  status : Status
  dimension : Dimension
  is_solved : Bool
deriving DecidableEq

/-- A space is a mapping from dimension name to dimension; embedded as the
list of its dimensions (dictionary values in insertion order). -/
abbrev Space := List Dimension

/-- Membership test by name: Python `name in space`. -/
def containsName (s : Space) (n : Str) : Bool :=
  s.any fun d => decide (d.name = n)

/-- Dictionary lookup by name: Python `space[name]` (first match). -/
def findName (s : Space) (n : Str) : Option Dimension :=
  s.find? fun d => decide (d.name = n)

/-- Body of the first loop of `_find_conflicts`: a candidate dimension whose
name is in the parent space but which is not among the parent's values is
'changed'; one whose name is absent is 'new'. -/
def newOrChanged (exp : Space) (d : Dimension) : Option Conflict :=
  if containsName exp d.name then
    if d ∈ exp then none else some ⟨Status.changed, d, false⟩
  else some ⟨Status.new, d, false⟩

/-- Body of the second loop of `_find_conflicts`: a parent dimension whose
name is absent from the candidate space is 'missing'. -/
def missingFrom (conf : Space) (p : Dimension) : Option Conflict :=
  if containsName conf p.name then none else some ⟨Status.missing, p, false⟩

/-- `_find_conflicts`: candidate-space loop first, then parent-space loop. -/
def find_conflicts (exp conf : Space) : List Conflict :=
  conf.filterMap (newOrChanged exp) ++ exp.filterMap (missingFrom conf)

/-- Ledger operation kinds: 'add', 'rename', 'remove'. -/
inductive OpKind where
  | add
  | rename
  | remove
deriving DecidableEq

/-- Ledger payload: a single conflict (add/remove) or a pair (rename),
referenced by index into the builder's conflict list. -/
inductive Payload where
  | one (i : Nat)
  | pair (i j : Nat)
deriving DecidableEq

/-- Builder state: the two spaces, the conflict list and the operations
ledger (`operations` dictionary as an insertion-ordered association list). -/
structure BState where
  experiment_space : Space
  conflicting_space : Space
  conflicts : List Conflict
  operations : List (OpKind × List Payload)
deriving DecidableEq

/-- First-match lookup in the operations association list. -/
def lookupKind : List (OpKind × List Payload) → OpKind → Option (List Payload)
  | [], _ => none
  | (k', l) :: rest, k => if k' = k then some l else lookupKind rest k

/-- Entries queued under a kind (empty when the key is absent). -/
def entriesOf (ops : List (OpKind × List Payload)) (k : OpKind) : List Payload :=
  (lookupKind ops k).getD []

/-- Set the `is_solved` flag of the conflict at an index. -/
def setSolved : List Conflict → Nat → Bool → List Conflict
  | [], _, _ => []
  | c :: rest, 0, b => { c with is_solved := b } :: rest
  | c :: rest, Nat.succ n, b => c :: setSolved rest n b

/-- `_assert_has_status`: index, in the original conflict list, of the first
conflict whose status is in the given set and whose dimension name is the
'/'-prefixed name (Python filters by status and then takes `.index` of the
prefixed name, which is the same first match); `none` models the raised
ValueError. -/
def findConflictIdx (status : List Status) (name : Str) : List Conflict → Option Nat
  | [] => none
  | c :: rest =>
    if c.status ∈ status ∧ c.dimension.name = '/' :: name then some 0
    else (findConflictIdx status name rest).map (· + 1)

/-- `_mark_as`: find the conflict, set its flag, return the new state and the
conflict's identity (its index). -/
def markAs (st : BState) (name : Str) (status : List Status) (b : Bool) :
    Option (BState × Nat) :=
  match findConflictIdx status name st.conflicts with
  | none => none
  | some i => some ({ st with conflicts := setSolved st.conflicts i b }, i)

/-- First half of `_put_operation`: create the key with an empty list when it
is absent (new dictionary keys go at the end). -/
def ensureKey (ops : List (OpKind × List Payload)) (k : OpKind) :
    List (OpKind × List Payload) :=
  if (lookupKind ops k).isSome then ops else ops ++ [(k, [])]

/-- Append a payload unless an identical one is already present. -/
def addIfAbsent (l : List Payload) (p : Payload) : List Payload :=
  if p ∈ l then l else l ++ [p]

/-- `_put_operation`: ensure the kind's key exists, then append the payload
if it is not already queued under that kind. -/
def putOperation (ops : List (OpKind × List Payload)) (k : OpKind) (p : Payload) :
    List (OpKind × List Payload) :=
  (ensureKey ops k).map fun kl => if kl.1 = k then (kl.1, addIfAbsent kl.2 p) else kl

/-- Does a payload reference the conflict at index `n` (Python `arg in value`
for a tuple, identity comparison for a single conflict)? -/
def mentionsP (p : Payload) (n : Nat) : Bool :=
  match p with
  | .one a => a == n
  | .pair a b => a == n || b == n

/-- Python `list.remove(value)`: drop the first occurrence. -/
def pyRemoveOne (p : Payload) : List Payload → List Payload
  | [] => []
  | q :: rest => if q = p then rest else q :: pyRemoveOne p rest

/-- The 'rename' branch of `_remove_from_operations`: Python iterates the
list while removing matching pairs in place, so the element immediately
after a removed pair is skipped; the payloads are duplicate-free (ledger
invariant), hence removing the first occurrence of the current value removes
the current head.  Returns the surviving list and, in order, the indices of
the conflicts whose `is_solved` flag is reset to false (both components of
every matching pair). -/
def renameSweep (n : Nat) : List Payload → List Payload × List Nat
  | [] => ([], [])
  | Payload.one a :: rest =>
    -- unreachable in reachable states: rename entries are always pairs
    let r := renameSweep n rest
    (Payload.one a :: r.1, r.2)
  | Payload.pair a b :: rest =>
    if a = n ∨ b = n then
      match rest with
      | [] => ([], [a, b])
      | w :: rest2 =>
        let r := renameSweep n rest2
        (w :: r.1, a :: b :: r.2)
    else
      let r := renameSweep n rest
      (Payload.pair a b :: r.1, r.2)

/-- One dictionary entry of `_remove_from_operations`: the 'rename' kind
sweeps out pairs containing the conflict; other kinds drop the single
payload when present and un-resolve the conflict. -/
def removeStep (n : Nat) (acc : List (OpKind × List Payload) × List Nat)
    (kl : OpKind × List Payload) : List (OpKind × List Payload) × List Nat :=
  if kl.1 = OpKind.rename then
    let r := renameSweep n kl.2
    (acc.1 ++ [(OpKind.rename, r.1)], acc.2 ++ r.2)
  else if Payload.one n ∈ kl.2 then
    (acc.1 ++ [(kl.1, pyRemoveOne (Payload.one n) kl.2)], acc.2 ++ [n])
  else (acc.1 ++ [kl], acc.2)

/-- `_remove_from_operations`: walk all kinds, collect the flag resets (the
resets do not influence how the ledger is rewritten, so applying them after
the walk is equivalent to Python's interleaving). -/
def removeFromOperations (st : BState) (n : Nat) : BState :=
  let r := st.operations.foldl (removeStep n) ([], [])
  { st with operations := r.1,
            conflicts := r.2.foldl (fun cs m => setSolved cs m false) st.conflicts }

/-- The status-class keyword '~new'. -/
def kwNew : Str := ['~', 'n', 'e', 'w']

/-- The status-class keyword '~changed'. -/
def kwChanged : Str := ['~', 'c', 'h', 'a', 'n', 'g', 'e', 'd']

/-- The status-class keyword '~missing'. -/
def kwMissing : Str := ['~', 'm', 'i', 's', 's', 'i', 'n', 'g']

/-- The `special_keywords` dictionary: keyword token to status. -/
def specialKeyword (arg : Str) : Option Status :=
  if arg = kwNew then some Status.new
  else if arg = kwChanged then some Status.changed
  else if arg = kwMissing then some Status.missing
  else none

/-- `filter_conflicts_with_status` (order preserved). -/
def filterStatus (cs : List Conflict) (status : List Status) : List Conflict :=
  cs.filter fun c => decide (c.status ∈ status)

/-- `_extend_special_keywords`: every conflict name of the keyword's status,
with the leading '/' stripped. -/
def extendSpecial (cs : List Conflict) (st : Status) : List Str :=
  (filterStatus cs [st]).map fun c => c.dimension.name.drop 1

/-- `_extend_wildcard`: '/' plus the part of the selector before the first
'*' is the prefix; every conflict name starting with it whose status is in
the caller-supplied status set, with the leading '/' stripped. -/
def extendWildcard (cs : List Conflict) (arg : Str) (status : List Status) :
    List Str :=
  let pfx : Str := '/' :: arg.takeWhile (· ≠ '*')
  (cs.filter fun c =>
      pfx.isPrefixOf c.dimension.name && decide (c.status ∈ status)).map
    fun c => c.dimension.name.drop 1

/-- Python `str.split(' ')`: split on every single space character. -/
def splitOnSpace : Str → List Str
  | [] => [[]]
  | c :: rest =>
    match splitOnSpace rest with
    | [] => [[]]
    | h :: t => if c = ' ' then [] :: h :: t else (c :: h) :: t

/-- One selector of `_get_names`: a status-class keyword extends the
accumulated names, a wildcard extends them, and any other selector replaces
the accumulated list with just itself (`names = [arg]` in the source). -/
def getNamesStep (cs : List Conflict) (status : List Status) (names : List Str)
    (arg : Str) : List Str :=
  match specialKeyword arg with
  | some st => names ++ extendSpecial cs st
  | none =>
    if '*' ∈ arg then names ++ extendWildcard cs arg status else [arg]

/-- `_get_names`: split the selector on spaces and process each selector in
order against the accumulated name list. -/
def getNames (cs : List Conflict) (name : Str) (status : List Status) :
    List Str :=
  (splitOnSpace name).foldl (getNamesStep cs status) []

/-- `_do_basic`: expand the selector, then for each name mark the conflict
solved (ValueError when no conflict with the status set bears the name) and
queue the payload under the operation kind. -/
def do_basic (st : BState) (name : Str) (status : List Status) (k : OpKind) :
    Except Unit BState :=
  (getNames st.conflicts name status).foldlM
    (fun st' n =>
      match markAs st' n status true with
      | none => Except.error ()
      | some (st'', i) =>
        Except.ok { st'' with operations := putOperation st''.operations k (.one i) })
    st

/-- `add_dimension`. -/
def add_dimension (st : BState) (name : Str) : Except Unit BState :=
  do_basic st name [Status.new, Status.changed] OpKind.add

/-- `remove_dimension`. -/
def remove_dimension (st : BState) (name : Str) : Except Unit BState :=
  do_basic st name [Status.missing] OpKind.remove

/-- `reset_dimension`: expand the selector, then for each expanded name the
source looks up the raw selector `arg` (not the loop variable `_name`),
un-resolves that conflict and removes its ledger entries. -/
def reset_dimension (st : BState) (arg : Str) : Except Unit BState :=
  let status := [Status.missing, Status.new, Status.changed]
  (getNames st.conflicts arg status).foldlM
    (fun st' _name =>
      match markAs st' arg status false with
      | none => Except.error ()
      | some (st'', i) => Except.ok (removeFromOperations st'' i))
    st

/-- `rename_dimension`: require a 'missing' conflict for the old name and a
'new' conflict for the new name (either lookup failing raises before any
mutation), mark both solved and queue the pair under 'rename'. -/
def rename_dimension (st : BState) (oldN newN : Str) : Except Unit BState :=
  match findConflictIdx [Status.missing] oldN st.conflicts with
  | none => Except.error ()
  | some i =>
    match findConflictIdx [Status.new] newN st.conflicts with
    | none => Except.error ()
    | some j =>
      Except.ok { st with
        conflicts := setSolved (setSolved st.conflicts i true) j true,
        operations := putOperation st.operations OpKind.rename (.pair i j) }

/-- `get_old_dimension_value`: the parent-space dimension when the name is a
key of the parent space, `None` otherwise. -/
def get_old_dimension_value (st : BState) (name : Str) : Option Dimension :=
  if containsName st.experiment_space name then findName st.experiment_space name
  else none

/-- Adaptor placeholder: the source never constructs an adaptor (the factory
bodies are `pass`, i.e. they return None, modelled as `none`). -/
abbrev Adaptor := Unit

/-- `_add_adaptor` (body is a stub in the source: returns None). -/
def add_adaptor (_ : Payload) : Option Adaptor := none

/-- `_rename_adaptor` (body is a stub in the source: returns None). -/
def rename_adaptor (_ : Payload) : Option Adaptor := none

/-- `_remove_adaptor` (body is a stub in the source: returns None). -/
def remove_adaptor (_ : Payload) : Option Adaptor := none

/-- `_operations_mapping`. -/
def operationsMapping : OpKind → Payload → Option Adaptor
  | OpKind.add => add_adaptor
  | OpKind.rename => rename_adaptor
  | OpKind.remove => remove_adaptor

/-- The local `adaptors` list built by `create_adaptors`: one factory call
per ledger entry, dictionary kinds in insertion order. -/
def adaptorsBuilt (st : BState) : List (Option Adaptor) :=
  st.operations.flatMap fun kl => kl.2.map (operationsMapping kl.1)

/-- `create_adaptors`: the source builds the `adaptors` list but has no
return statement, so the call evaluates to Python None (`none`); the
conflict list and the ledger are not touched. -/
def create_adaptors (st : BState) : Option (List (Option Adaptor)) :=
  let _adaptors := adaptorsBuilt st
  none

/-- The three embedded command-line operator tokens, in the dictionary's
insertion order '~+', '~-', '~>'. -/
inductive OpTok where
  | plus
  | minus
  | arrow
deriving DecidableEq, Fintype

/-- Characters of an operator token (all three are two characters long). -/
def tokChars : OpTok → Char × Char
  | OpTok.plus => ('~', '+')
  | OpTok.minus => ('~', '-')
  | OpTok.arrow => ('~', '>')

/-- Substring test for a two-character pattern: Python `kw in arg`. -/
def hasSub2 (a b : Char) : Str → Bool
  | [] => false
  | [_] => false
  | c :: d :: rest => (c = a ∧ d = b : Bool) || hasSub2 a b (d :: rest)

/-- Does the argument contain the operator token? -/
def hasTok (t : OpTok) (arg : Str) : Bool :=
  hasSub2 (tokChars t).1 (tokChars t).2 arg

/-- Python `str.replace(kw, r)` for a two-character pattern and a
one-character replacement: replace every occurrence, left to right,
without overlap. -/
def replace2 (a b r : Char) : Str → Str
  | [] => []
  | [c] => [c]
  | c :: d :: rest =>
    if c = a ∧ d = b then r :: replace2 a b r rest
    else c :: replace2 a b r (d :: rest)

/-- The rewritten form of an argument: the source replaces, for each
matching operator in dictionary order, the operator substring by '~'; for
an argument containing occurrences of at most one operator kind this is a
single replacement, and an argument with no operator is unchanged. -/
def rwArg (arg : Str) : Str :=
  if hasSub2 '~' '+' arg then replace2 '~' '+' '~' arg
  else if hasSub2 '~' '-' arg then replace2 '~' '-' '~' arg
  else if hasSub2 '~' '>' arg then replace2 '~' '>' '~' arg
  else arg

/-- The three command-line instruction buffers. -/
structure CLBuffers where
  plusBuf : List Str
  minusBuf : List Str
  arrowBuf : List Str
deriving DecidableEq

/-- Append an argument to one operator's instruction buffer. -/
def bufAppend (bufs : CLBuffers) (t : OpTok) (arg : Str) : CLBuffers :=
  match t with
  | OpTok.plus => { bufs with plusBuf := bufs.plusBuf ++ [arg] }
  | OpTok.minus => { bufs with minusBuf := bufs.minusBuf ++ [arg] }
  | OpTok.arrow => { bufs with arrowBuf := bufs.arrowBuf ++ [arg] }

/-- First index holding a given string: Python `list.index`, with `none`
modelling the raised ValueError. -/
def idxOfStr : List Str → Str → Option Nat
  | [], _ => none
  | s :: rest, a => if s = a then some 0 else (idxOfStr rest a).map (· + 1)

/-- The keyword loop body of `_interpret_commandline` for one argument: when
the token occurs in the argument (the loop variable, i.e. the value read at
the current position), the argument is appended unmodified to the token's
buffer and the list element at the first index currently holding a string
equal to the argument is replaced by the argument with the token substituted
by '~'. -/
def kwStep (arg : Str) (acc : CLBuffers × List Str) (t : OpTok) :
    Option (CLBuffers × List Str) :=
  if hasTok t arg then
    match idxOfStr acc.2 arg with
    | none => none
    | some k =>
      some (bufAppend acc.1 t arg,
            acc.2.set k (replace2 (tokChars t).1 (tokChars t).2 '~' arg))
  else some acc

/-- The ordered token list (dictionary insertion order). -/
def tokList : List OpTok := [OpTok.plus, OpTok.minus, OpTok.arrow]

/-- Position-indexed loop of `_interpret_commandline`: Python iterates the
list by an internal index while mutating elements in place (the length never
changes), so each step reads the current value at the next position. -/
def interpGo : Nat → Nat → CLBuffers × List Str → Option (CLBuffers × List Str)
  | 0, _, acc => some acc
  | Nat.succ n, p, acc =>
    match acc.2[p]? with
    | none => none
    | some arg =>
      match tokList.foldlM (kwStep arg) acc with
      | none => none
      | some acc' => interpGo n (p + 1) acc'

/-- `_interpret_commandline` over the candidate `user_args` list: returns
the filled instruction buffers and the rewritten argument list. -/
def interpretCommandline (args : List Str) : Option (CLBuffers × List Str) :=
  interpGo args.length 0 (⟨[], [], []⟩, args)

/-- Number of occurrences of an element in a list. -/
def countOcc {α : Type} [DecidableEq α] (x : α) : List α → Nat
  | [] => 0
  | y :: t => (if y = x then 1 else 0) + countOcc x t

theorem countOcc_append {α : Type} [DecidableEq α] (x : α) (l₁ l₂ : List α) :
    countOcc x (l₁ ++ l₂) = countOcc x l₁ + countOcc x l₂ := by
  induction l₁ with
  | nil => simp [countOcc]
  | cons y t ih => simp [countOcc, ih]; omega

theorem containsName_iff (s : Space) (n : Str) :
    containsName s n = true ↔ ∃ d ∈ s, d.name = n := by
  simp [containsName, List.any_eq_true]

theorem containsName_eq_false (s : Space) (n : Str) :
    containsName s n = false ↔ ∀ d ∈ s, d.name ≠ n := by
  simp [containsName, List.any_eq_false]

theorem findName_some (s : Space) (n : Str) (d : Dimension)
    (h : findName s n = some d) : d ∈ s ∧ d.name = n := by
  refine ⟨List.mem_of_find?_eq_some h, ?_⟩
  have := List.find?_some h
  simpa using this

theorem containsName_of_findName (s : Space) (n : Str) (d : Dimension)
    (h : findName s n = some d) : containsName s n = true := by
  obtain ⟨hm, hn⟩ := findName_some s n d h
  exact (containsName_iff s n).mpr ⟨d, hm, hn⟩

/-- Dimensions of a space with name-unique keys are determined by name. -/
theorem eq_of_name_eq (s : Space) (hs : (s.map Dimension.name).Nodup)
    {d e : Dimension} (hd : d ∈ s) (he : e ∈ s) (h : d.name = e.name) :
    d = e :=
  List.inj_on_of_nodup_map hs hd he h

theorem newOrChanged_dim (exp : Space) (x : Dimension) (c : Conflict)
    (h : newOrChanged exp x = some c) : c.dimension = x := by
  unfold newOrChanged at h
  split at h
  · split at h
    · exact absurd h (by simp)
    · injection h with h'; rw [← h']
  · injection h with h'; rw [← h']

theorem missingFrom_dim (conf : Space) (x : Dimension) (c : Conflict)
    (h : missingFrom conf x = some c) : c.dimension = x := by
  unfold missingFrom at h
  split at h
  · exact absurd h (by simp)
  · injection h with h'; rw [← h']

theorem newOrChanged_status (exp : Space) (x : Dimension) (c : Conflict)
    (h : newOrChanged exp x = some c) :
    c.status = Status.new ∨ c.status = Status.changed := by
  unfold newOrChanged at h
  split at h
  · split at h
    · exact absurd h (by simp)
    · injection h with h'; rw [← h']; exact Or.inr rfl
  · injection h with h'; rw [← h']; exact Or.inl rfl

theorem missingFrom_status (conf : Space) (x : Dimension) (c : Conflict)
    (h : missingFrom conf x = some c) : c.status = Status.missing := by
  unfold missingFrom at h
  split at h
  · exact absurd h (by simp)
  · injection h with h'; rw [← h']

/-- Occurrence count in a filterMap over a name-unique dimension list, for
dimension-preserving partial functions. -/
theorem countOcc_filterMap (l : List Dimension) (f : Dimension → Option Conflict)
    (hf : ∀ x c, f x = some c → c.dimension = x)
    (hl : (l.map Dimension.name).Nodup) (c : Conflict) :
    countOcc c (l.filterMap f) =
      if c.dimension ∈ l ∧ f c.dimension = some c then 1 else 0 := by
  induction l with
  | nil => simp [countOcc]
  | cons x t ih =>
    simp only [List.map_cons, List.nodup_cons] at hl
    obtain ⟨hx, ht⟩ := hl
    have hnott : c.dimension = x → c.dimension ∉ t := by
      intro he hmem
      exact hx (he ▸ List.mem_map_of_mem Dimension.name hmem)
    rw [List.filterMap_cons]
    cases hfx : f x with
    | none =>
      rw [ih ht]
      by_cases hcd : c.dimension = x
      · have h1 : ¬(c.dimension ∈ t ∧ f c.dimension = some c) := by
          intro ⟨hmem, _⟩; exact hnott hcd hmem
        have h2 : ¬(c.dimension ∈ x :: t ∧ f c.dimension = some c) := by
          intro ⟨_, hfc⟩; rw [hcd, hfx] at hfc; exact absurd hfc (by simp)
        simp only [List.mem_cons] at h2
        simp [h1, h2]
      · simp [List.mem_cons, hcd]
    | some c' =>
      have hdim : c'.dimension = x := hf x c' hfx
      simp only [countOcc]
      rw [ih ht]
      by_cases hcc : c' = c
      · subst hcc
        have h1 : ¬(c'.dimension ∈ t ∧ f c'.dimension = some c') := by
          intro ⟨hmem, _⟩; exact hnott hdim hmem
        have h2 : c'.dimension ∈ x :: t ∧ f c'.dimension = some c' := by
          refine ⟨by simp [hdim], by rw [hdim, hfx]⟩
        simp [h1, h2]
        exact hnott hdim
      · by_cases hcd : c.dimension = x
        · have h1 : ¬(c.dimension ∈ t ∧ f c.dimension = some c) := by
            intro ⟨hmem, _⟩; exact hnott hcd hmem
          have h2 : ¬(c.dimension ∈ x :: t ∧ f c.dimension = some c) := by
            intro ⟨_, hfc⟩
            rw [hcd, hfx] at hfc
            exact hcc (by injection hfc)
          simp only [List.mem_cons] at h2
          simp [h1, h2, hcc]
        · simp [List.mem_cons, hcd, hcc]

/-- C1: for every pair of built spaces with name-unique keys, conflict
detection emits exactly one Conflict('new', d) for each candidate dimension
whose name is absent from the parent space, exactly one Conflict('changed',
d) for each candidate dimension whose name is present in the parent space
but whose declaration differs from the parent's dimension of that name,
exactly one Conflict('missing', p) for each parent dimension whose name is
absent from the candidate space, no other conflicts, and the empty conflict
set when the two spaces hold the same dimensions. -/
theorem C1_find_conflicts (exp conf : Space)
    (hne : (exp.map Dimension.name).Nodup)
    (hnc : (conf.map Dimension.name).Nodup) :
    (∀ d ∈ conf, containsName exp d.name = false →
      countOcc (⟨Status.new, d, false⟩ : Conflict) (find_conflicts exp conf) = 1) ∧
    (∀ d ∈ conf, ∀ e, findName exp d.name = some e → e ≠ d →
      countOcc (⟨Status.changed, d, false⟩ : Conflict) (find_conflicts exp conf) = 1) ∧
    (∀ p ∈ exp, containsName conf p.name = false →
      countOcc (⟨Status.missing, p, false⟩ : Conflict) (find_conflicts exp conf) = 1) ∧
    (∀ c ∈ find_conflicts exp conf, c.is_solved = false ∧
      ((c.status = Status.new ∧ c.dimension ∈ conf ∧
          containsName exp c.dimension.name = false) ∨
       (c.status = Status.changed ∧ c.dimension ∈ conf ∧
          (∃ e, findName exp c.dimension.name = some e ∧ e ≠ c.dimension)) ∨
       (c.status = Status.missing ∧ c.dimension ∈ exp ∧
          containsName conf c.dimension.name = false))) ∧
    ((∀ d : Dimension, d ∈ exp ↔ d ∈ conf) → find_conflicts exp conf = []) := by
  have hfc : ∀ x c, newOrChanged exp x = some c → c.dimension = x :=
    newOrChanged_dim exp
  have hfm : ∀ x c, missingFrom conf x = some c → c.dimension = x :=
    missingFrom_dim conf
  refine ⟨?_, ?_, ?_, ?_, ?_⟩
  · intro d hd habs
    rw [find_conflicts, countOcc_append, countOcc_filterMap conf _ hfc hnc,
        countOcc_filterMap exp _ hfm hne]
    have h1 : newOrChanged exp d = some ⟨Status.new, d, false⟩ := by
      rw [newOrChanged, habs]; simp
    have h2 : ¬((⟨Status.new, d, false⟩ : Conflict).dimension ∈ exp ∧
        missingFrom conf (⟨Status.new, d, false⟩ : Conflict).dimension =
          some ⟨Status.new, d, false⟩) := by
      intro ⟨_, hm⟩
      have := missingFrom_status conf _ _ hm
      simp at this
    simp only [h2, if_false]
    simp [hd, h1]
  · intro d hd e hfind hne'
    rw [find_conflicts, countOcc_append, countOcc_filterMap conf _ hfc hnc,
        countOcc_filterMap exp _ hfm hne]
    obtain ⟨hemem, hename⟩ := findName_some _ _ _ hfind
    have hcont : containsName exp d.name = true :=
      containsName_of_findName _ _ _ hfind
    have hnmem : d ∉ exp := by
      intro hmem
      exact hne' (eq_of_name_eq exp hne hemem hmem hename)
    have h1 : newOrChanged exp d = some ⟨Status.changed, d, false⟩ := by
      rw [newOrChanged, hcont]
      simp [hnmem]
    have h2 : ¬((⟨Status.changed, d, false⟩ : Conflict).dimension ∈ exp ∧
        missingFrom conf (⟨Status.changed, d, false⟩ : Conflict).dimension =
          some ⟨Status.changed, d, false⟩) := by
      intro ⟨_, hm⟩
      have := missingFrom_status conf _ _ hm
      simp at this
    simp only [h2, if_false]
    simp [hd, h1]
  · intro p hp habs
    rw [find_conflicts, countOcc_append, countOcc_filterMap conf _ hfc hnc,
        countOcc_filterMap exp _ hfm hne]
    have h1 : missingFrom conf p = some ⟨Status.missing, p, false⟩ := by
      rw [missingFrom, habs]; simp
    have h2 : ¬((⟨Status.missing, p, false⟩ : Conflict).dimension ∈ conf ∧
        newOrChanged exp (⟨Status.missing, p, false⟩ : Conflict).dimension =
          some ⟨Status.missing, p, false⟩) := by
      intro ⟨_, hm⟩
      rcases newOrChanged_status exp _ _ hm with h | h <;> simp at h
    simp only [h2, if_false]
    simp [hp, h1]
  · intro c hc
    rw [find_conflicts, List.mem_append] at hc
    rcases hc with hc | hc
    · rw [List.mem_filterMap] at hc
      obtain ⟨x, hx, hfx⟩ := hc
      have hd := hfc x c hfx
      rw [newOrChanged] at hfx
      split at hfx
      · split at hfx
        · exact absurd hfx (by simp)
        · rename_i hcont hmem
          injection hfx with hfx'
          rw [← hfx']
          refine ⟨rfl, Or.inr (Or.inl ⟨rfl, hx, ?_⟩)⟩
          obtain ⟨e, he, hn⟩ := (containsName_iff exp x.name).mp hcont
          have hfindsome : (findName exp x.name).isSome := by
            rw [findName, List.find?_isSome]
            exact ⟨e, he, by simp [hn]⟩
          obtain ⟨e', he'⟩ := Option.isSome_iff_exists.mp hfindsome
          refine ⟨e', he', ?_⟩
          intro heq
          obtain ⟨hmem', _⟩ := findName_some _ _ _ he'
          rw [show (⟨Status.changed, x, false⟩ : Conflict).dimension = x from rfl]
            at heq
          exact hmem (heq ▸ hmem')
      · rename_i hcont
        injection hfx with hfx'
        rw [← hfx']
        exact ⟨rfl, Or.inl ⟨rfl, hx, Bool.not_eq_true _ ▸ hcont⟩⟩
    · rw [List.mem_filterMap] at hc
      obtain ⟨x, hx, hfx⟩ := hc
      rw [missingFrom] at hfx
      split at hfx
      · exact absurd hfx (by simp)
      · rename_i hcont
        injection hfx with hfx'
        rw [← hfx']
        exact ⟨rfl, Or.inr (Or.inr ⟨rfl, hx, Bool.not_eq_true _ ▸ hcont⟩)⟩
  · intro hsame
    rw [find_conflicts, List.append_eq_nil]
    constructor
    · rw [List.filterMap_eq_nil_iff]
      intro d hd
      have hde : d ∈ exp := (hsame d).mpr hd
      have hcont : containsName exp d.name = true :=
        (containsName_iff exp d.name).mpr ⟨d, hde, rfl⟩
      rw [newOrChanged, hcont]
      simp [hde]
    · rw [List.filterMap_eq_nil_iff]
      intro p hp
      have hpc : p ∈ conf := (hsame p).mp hp
      have hcont : containsName conf p.name = true :=
        (containsName_iff conf p.name).mpr ⟨p, hpc, rfl⟩
      rw [missingFrom, hcont]
      simp

/-- Parent space for the C1 witness: lr with declaration 1 and b with 2. -/
def wExp : Space := [⟨['/', 'l', 'r'], 1⟩, ⟨['/', 'b'], 2⟩]

/-- Candidate space for the C1 witness: lr redeclared as 9, and a new m. -/
def wConf : Space := [⟨['/', 'l', 'r'], 9⟩, ⟨['/', 'm'], 3⟩]

/-- Witness for C1 at concrete spaces: hypotheses hold and each of the
three discrepancies is emitted exactly once. -/
theorem C1_find_conflicts_witness :
    (wExp.map Dimension.name).Nodup ∧ (wConf.map Dimension.name).Nodup ∧
    countOcc (⟨Status.new, ⟨['/', 'm'], 3⟩, false⟩ : Conflict)
      (find_conflicts wExp wConf) = 1 ∧
    countOcc (⟨Status.changed, ⟨['/', 'l', 'r'], 9⟩, false⟩ : Conflict)
      (find_conflicts wExp wConf) = 1 ∧
    countOcc (⟨Status.missing, ⟨['/', 'b'], 2⟩, false⟩ : Conflict)
      (find_conflicts wExp wConf) = 1 :=
  ⟨by decide, by decide,
   (C1_find_conflicts wExp wConf (by decide) (by decide)).1
     ⟨['/', 'm'], 3⟩ (by decide) (by decide),
   (C1_find_conflicts wExp wConf (by decide) (by decide)).2.1
     ⟨['/', 'l', 'r'], 9⟩ (by decide) ⟨['/', 'l', 'r'], 1⟩ (by decide) (by decide),
   (C1_find_conflicts wExp wConf (by decide) (by decide)).2.2.1
     ⟨['/', 'b'], 2⟩ (by decide) (by decide)⟩

theorem getElem?_mem' {α : Type} {l : List α} {i : Nat} {a : α}
    (h : l[i]? = some a) : a ∈ l := by
  induction l generalizing i with
  | nil => simp at h
  | cons x t ih =>
    cases i with
    | zero => simp at h; simp [h]
    | succ m => simp at h; exact List.mem_cons_of_mem x (ih h)

theorem setSolved_getElem? (l : List Conflict) (i : Nat) (b : Bool) (j : Nat) :
    (setSolved l i b)[j]? =
      if j = i then (l[j]?).map (fun c => { c with is_solved := b })
      else l[j]? := by
  induction l generalizing i j with
  | nil => simp [setSolved]
  | cons c t ih =>
    cases i with
    | zero =>
      cases j with
      | zero => simp [setSolved]
      | succ m => simp [setSolved]
    | succ n =>
      cases j with
      | zero => simp [setSolved]
      | succ m => simpa [setSolved] using ih n m

theorem setSolved_names (l : List Conflict) (i : Nat) (b : Bool) :
    (setSolved l i b).map (fun c => c.dimension.name) =
      l.map (fun c => c.dimension.name) := by
  induction l generalizing i with
  | nil => simp [setSolved]
  | cons c t ih =>
    cases i with
    | zero => simp [setSolved]
    | succ n => simp [setSolved, ih n]

theorem findConflictIdx_setSolved (status : List Status) (nm : Str)
    (l : List Conflict) (i : Nat) (b : Bool) :
    findConflictIdx status nm (setSolved l i b) = findConflictIdx status nm l := by
  induction l generalizing i with
  | nil => simp [setSolved]
  | cons c t ih =>
    cases i with
    | zero => simp [setSolved, findConflictIdx]
    | succ n => simp [setSolved, findConflictIdx, ih n]

theorem setSolved_setSolved (l : List Conflict) (i : Nat) (b b' : Bool) :
    setSolved (setSolved l i b) i b' = setSolved l i b' := by
  induction l generalizing i with
  | nil => simp [setSolved]
  | cons c t ih =>
    cases i with
    | zero => simp [setSolved]
    | succ n => simp [setSolved, ih n]

theorem setSolved_eq_self (l : List Conflict) (i : Nat) (b : Bool)
    (c : Conflict) (h : l[i]? = some c) (hb : c.is_solved = b) :
    setSolved l i b = l := by
  induction l generalizing i with
  | nil => simp [setSolved]
  | cons d t ih =>
    cases i with
    | zero =>
      simp at h
      subst h
      rw [setSolved, ← hb]
    | succ n =>
      simp at h
      simp [setSolved, ih n h]

/-- In a conflict list with pairwise-distinct dimension names, the lookup of
`_assert_has_status` finds exactly the index holding the conflict whose
prefixed name matches, provided its status is in the set. -/
theorem findConflictIdx_nodup (status : List Status) (nm : Str)
    (l : List Conflict) (i : Nat) (c : Conflict)
    (hnd : (l.map (fun c => c.dimension.name)).Nodup)
    (hget : l[i]? = some c) (hname : c.dimension.name = '/' :: nm)
    (hst : c.status ∈ status) :
    findConflictIdx status nm l = some i := by
  induction l generalizing i with
  | nil => simp at hget
  | cons d t ih =>
    simp only [List.map_cons, List.nodup_cons] at hnd
    obtain ⟨hd, ht⟩ := hnd
    cases i with
    | zero =>
      simp at hget
      subst hget
      rw [findConflictIdx, if_pos ⟨hst, hname⟩]
    | succ n =>
      simp at hget
      have hdn : ¬(d.status ∈ status ∧ d.dimension.name = '/' :: nm) := by
        intro ⟨_, hdn'⟩
        have hcm : c ∈ t := getElem?_mem' hget
        have : c.dimension.name ∈ t.map (fun c => c.dimension.name) :=
          List.mem_map_of_mem _ hcm
        rw [hname] at this
        rw [hdn'] at hd
        exact hd this
      rw [findConflictIdx, if_neg hdn, ih n ht hget]
      rfl

theorem lookupKind_append (l₁ l₂ : List (OpKind × List Payload)) (k : OpKind) :
    lookupKind (l₁ ++ l₂) k =
      match lookupKind l₁ k with
      | some v => some v
      | none => lookupKind l₂ k := by
  induction l₁ with
  | nil => simp [lookupKind]
  | cons a t ih =>
    obtain ⟨a1, a2⟩ := a
    by_cases h : a1 = k
    · simp [lookupKind, h]
    · simp [lookupKind, h, ih]

theorem entriesOf_ensureKey (ops : List (OpKind × List Payload)) (k k' : OpKind) :
    entriesOf (ensureKey ops k) k' = entriesOf ops k' := by
  rw [ensureKey]
  by_cases h : (lookupKind ops k).isSome
  · rw [if_pos h]
  · rw [if_neg h]
    rw [entriesOf, lookupKind_append]
    cases hl : lookupKind ops k' with
    | some v => simp [entriesOf, hl]
    | none =>
      by_cases hk : k = k'
      · subst hk
        rw [Option.not_isSome_iff_eq_none] at h
        simp [entriesOf, lookupKind, h]
      · simp [entriesOf, lookupKind, hk, hl]

theorem lookupKind_map_put (ops : List (OpKind × List Payload))
    (k : OpKind) (p : Payload) (k' : OpKind) :
    lookupKind
        (ops.map fun kl => if kl.1 = k then (kl.1, addIfAbsent kl.2 p) else kl)
        k' =
      if k' = k then (lookupKind ops k).map (fun l => addIfAbsent l p)
      else lookupKind ops k' := by
  induction ops with
  | nil => simp [lookupKind]
  | cons a t ih =>
    obtain ⟨a1, a2⟩ := a
    have hf : (if (a1, a2).1 = k then ((a1, a2).1, addIfAbsent (a1, a2).2 p)
          else (a1, a2)) =
        if a1 = k then (a1, addIfAbsent a2 p) else (a1, a2) := rfl
    rw [List.map_cons, hf]
    by_cases hak : a1 = k
    · subst hak
      rw [if_pos rfl]
      by_cases hk' : k' = a1
      · subst hk'
        simp [lookupKind]
      · simp [lookupKind, hk', Ne.symm hk', ih]
    · rw [if_neg hak]
      by_cases hak' : a1 = k'
      · subst hak'
        simp [lookupKind, Ne.symm hak, hak]
      · simp [lookupKind, hak, hak', ih]

theorem entriesOf_putOperation (ops : List (OpKind × List Payload))
    (k : OpKind) (p : Payload) (k' : OpKind) :
    entriesOf (putOperation ops k p) k' =
      if k' = k then addIfAbsent (entriesOf ops k) p else entriesOf ops k' := by
  rw [putOperation, entriesOf, lookupKind_map_put]
  by_cases hk : k' = k
  · subst hk
    rw [if_pos rfl, if_pos rfl]
    rw [ensureKey]
    by_cases h : (lookupKind ops k').isSome
    · obtain ⟨v, hv⟩ := Option.isSome_iff_exists.mp h
      simp [entriesOf, hv, h]
    · rw [Option.not_isSome_iff_eq_none] at h
      rw [if_neg (by simp [h]), lookupKind_append, h]
      simp [entriesOf, h, lookupKind]
  · rw [if_neg hk, if_neg hk]
    have := entriesOf_ensureKey ops k k'
    rw [entriesOf] at this
    rw [this]

theorem renameSweep_one (n a : Nat) (rest : List Payload) :
    renameSweep n (Payload.one a :: rest) =
      (Payload.one a :: (renameSweep n rest).1, (renameSweep n rest).2) := by
  cases rest <;> simp [renameSweep]

theorem renameSweep_pair_miss (n a b : Nat) (rest : List Payload)
    (ha : ¬(a = n ∨ b = n)) :
    renameSweep n (Payload.pair a b :: rest) =
      (Payload.pair a b :: (renameSweep n rest).1, (renameSweep n rest).2) := by
  cases rest <;> simp [renameSweep, ha]

theorem renameSweep_clean (m : Nat) (l : List Payload)
    (h : ∀ p ∈ l, mentionsP p m = false) : renameSweep m l = (l, []) := by
  induction l with
  | nil => rfl
  | cons v rest ih =>
    have hv := h v (List.mem_cons_self v rest)
    have hrest := fun p hp => h p (List.mem_cons_of_mem v hp)
    cases v with
    | one a => rw [renameSweep_one]; simp [ih hrest]
    | pair a b =>
      simp [mentionsP] at hv
      have hno : ¬(a = m ∨ b = m) := fun hc => hc.elim hv.1 hv.2
      rw [renameSweep_pair_miss m a b rest hno]
      simp [ih hrest]

theorem renameSweep_last (m a b : Nat) (l : List Payload)
    (h : ∀ p ∈ l, mentionsP p m = false) (hm : a = m ∨ b = m) :
    renameSweep m (l ++ [Payload.pair a b]) = (l, [a, b]) := by
  induction l with
  | nil => simp [renameSweep, hm]
  | cons v rest ih =>
    have hv := h v (List.mem_cons_self v rest)
    have hrest := fun p hp => h p (List.mem_cons_of_mem v hp)
    cases v with
    | one c => rw [List.cons_append, renameSweep_one]; simp [ih hrest]
    | pair c d =>
      simp [mentionsP] at hv
      have hno : ¬(c = m ∨ d = m) := fun hc => hc.elim hv.1 hv.2
      rw [List.cons_append, renameSweep_pair_miss m c d _ hno]
      simp [ih hrest]

theorem pyRemoveOne_last (p : Payload) (l : List Payload) (h : p ∉ l) :
    pyRemoveOne p (l ++ [p]) = l := by
  induction l with
  | nil => simp [pyRemoveOne]
  | cons q rest ih =>
    have hq : q ≠ p := fun he => h (he ▸ List.mem_cons_self q rest)
    have hrest : p ∉ rest := fun hm => h (List.mem_cons_of_mem q hm)
    simp [pyRemoveOne, hq, ih hrest]

theorem removeStep_clean_single (m : Nat)
    (acc : List (OpKind × List Payload) × List Nat) (a : OpKind)
    (l : List Payload) (h : ∀ p ∈ l, mentionsP p m = false) :
    removeStep m acc (a, l) = (acc.1 ++ [(a, l)], acc.2) := by
  by_cases ha : a = OpKind.rename
  · subst ha
    simp [removeStep, renameSweep_clean m l h]
  · have hnm : Payload.one m ∉ l := by
      intro hm
      have := h _ hm
      simp [mentionsP] at this
    simp [removeStep, ha, hnm]

theorem fold_removeStep_clean (m : Nat) (kls : List (OpKind × List Payload))
    (h : ∀ kl ∈ kls, ∀ p ∈ kl.2, mentionsP p m = false) :
    ∀ acc, kls.foldl (removeStep m) acc = (acc.1 ++ kls, acc.2) := by
  induction kls with
  | nil => intro acc; simp
  | cons kl rest ih =>
    intro acc
    obtain ⟨a, l⟩ := kl
    rw [List.foldl_cons,
        removeStep_clean_single m acc a l (h (a, l) (List.mem_cons_self _ rest)),
        ih (fun kl hm => h kl (List.mem_cons_of_mem _ hm))]
    simp

theorem map_put_id (ops : List (OpKind × List Payload)) (k : OpKind)
    (p : Payload) (h : ∀ kl ∈ ops, kl.1 ≠ k) :
    ops.map (fun kl => if kl.1 = k then (kl.1, addIfAbsent kl.2 p) else kl) =
      ops := by
  induction ops with
  | nil => rfl
  | cons a t ih =>
    rw [List.map_cons, ih (fun kl hm => h kl (List.mem_cons_of_mem a hm))]
    have ha := h a (List.mem_cons_self a t)
    simp [ha]

theorem putOperation_cons_hit (k : OpKind) (l : List Payload)
    (rest : List (OpKind × List Payload)) (p : Payload)
    (hrest : ∀ kl ∈ rest, kl.1 ≠ k) :
    putOperation ((k, l) :: rest) k p = (k, addIfAbsent l p) :: rest := by
  rw [putOperation, ensureKey]
  have hsome : (lookupKind ((k, l) :: rest) k).isSome := by simp [lookupKind]
  rw [if_pos hsome, List.map_cons, map_put_id rest k p hrest]
  simp

theorem putOperation_cons_miss (a : OpKind) (l : List Payload)
    (rest : List (OpKind × List Payload)) (k : OpKind) (p : Payload)
    (ha : a ≠ k) :
    putOperation ((a, l) :: rest) k p = (a, l) :: putOperation rest k p := by
  rw [putOperation, putOperation, ensureKey, ensureKey]
  have hlk : lookupKind ((a, l) :: rest) k = lookupKind rest k := by
    simp [lookupKind, ha]
  rw [hlk]
  by_cases h : (lookupKind rest k).isSome
  · rw [if_pos h, if_pos h, List.map_cons]
    simp [ha]
  · rw [if_neg h, if_neg h, List.cons_append, List.map_cons]
    simp [ha]

theorem putOperation_nil (k : OpKind) (p : Payload) :
    putOperation [] k p = [(k, [p])] := by
  rw [putOperation, ensureKey]
  simp [lookupKind, addIfAbsent]

theorem ensureKey_cons_miss (a : OpKind) (l : List Payload)
    (rest : List (OpKind × List Payload)) (k : OpKind) (ha : a ≠ k) :
    ensureKey ((a, l) :: rest) k = (a, l) :: ensureKey rest k := by
  rw [ensureKey, ensureKey]
  have hlk : lookupKind ((a, l) :: rest) k = lookupKind rest k := by
    simp [lookupKind, ha]
  rw [hlk]
  by_cases h : (lookupKind rest k).isSome
  · rw [if_pos h, if_pos h]
  · rw [if_neg h, if_neg h, List.cons_append]

theorem ensureKey_cons_hit (k : OpKind) (l : List Payload)
    (rest : List (OpKind × List Payload)) :
    ensureKey ((k, l) :: rest) k = (k, l) :: rest := by
  rw [ensureKey, if_pos]
  simp [lookupKind]

theorem fold_remove_put_rename (m i j : Nat) (hm : m = i ∨ m = j)
    (ops : List (OpKind × List Payload))
    (hkeys : (ops.map Prod.fst).Nodup)
    (hclean : ∀ kl ∈ ops, ∀ p ∈ kl.2, mentionsP p m = false) :
    ∀ acc, (putOperation ops OpKind.rename (Payload.pair i j)).foldl
        (removeStep m) acc =
      (acc.1 ++ ensureKey ops OpKind.rename, acc.2 ++ [i, j]) := by
  have hmij : i = m ∨ j = m := hm.imp Eq.symm Eq.symm
  induction ops with
  | nil =>
    intro acc
    rw [putOperation_nil, List.foldl_cons, List.foldl_nil]
    simp [removeStep, renameSweep, hmij, ensureKey, lookupKind]
  | cons kl rest ih =>
    intro acc
    obtain ⟨a, l⟩ := kl
    have hheadclean : ∀ p ∈ l, mentionsP p m = false :=
      hclean (a, l) (List.mem_cons_self _ rest)
    have hrestclean : ∀ kl ∈ rest, ∀ p ∈ kl.2, mentionsP p m = false :=
      fun kl hkl => hclean kl (List.mem_cons_of_mem _ hkl)
    simp only [List.map_cons, List.nodup_cons] at hkeys
    by_cases ha : a = OpKind.rename
    · subst ha
      have hrestk : ∀ kl ∈ rest, kl.1 ≠ OpKind.rename := by
        intro kl hkl he
        exact hkeys.1 (he ▸ List.mem_map_of_mem Prod.fst hkl)
      rw [putOperation_cons_hit _ _ _ _ hrestk]
      have hnotmem : Payload.pair i j ∉ l := by
        intro hmem
        have := hheadclean _ hmem
        rcases hm with hm | hm <;> simp [mentionsP, hm] at this
      have hpadd : addIfAbsent l (Payload.pair i j) = l ++ [Payload.pair i j] := by
        rw [addIfAbsent, if_neg hnotmem]
      rw [hpadd, List.foldl_cons]
      have hsw := renameSweep_last m i j l hheadclean hmij
      have hstep : removeStep m acc
          (OpKind.rename, l ++ [Payload.pair i j]) =
          (acc.1 ++ [(OpKind.rename, l)], acc.2 ++ [i, j]) := by
        simp [removeStep, hsw]
      rw [hstep, fold_removeStep_clean m rest hrestclean, ensureKey_cons_hit]
      simp
    · rw [putOperation_cons_miss _ _ _ _ _ ha, List.foldl_cons,
          removeStep_clean_single m acc a l hheadclean,
          ih hkeys.2 hrestclean, ensureKey_cons_miss _ _ _ _ ha]
      simp

theorem fold_remove_put_one (m : Nat) (k : OpKind) (hk : k ≠ OpKind.rename)
    (ops : List (OpKind × List Payload))
    (hkeys : (ops.map Prod.fst).Nodup)
    (hclean : ∀ kl ∈ ops, ∀ p ∈ kl.2, mentionsP p m = false) :
    ∀ acc, (putOperation ops k (Payload.one m)).foldl (removeStep m) acc =
      (acc.1 ++ ensureKey ops k, acc.2 ++ [m]) := by
  induction ops with
  | nil =>
    intro acc
    rw [putOperation_nil, List.foldl_cons, List.foldl_nil]
    simp [removeStep, hk, pyRemoveOne, ensureKey, lookupKind]
  | cons kl rest ih =>
    intro acc
    obtain ⟨a, l⟩ := kl
    have hheadclean : ∀ p ∈ l, mentionsP p m = false :=
      hclean (a, l) (List.mem_cons_self _ rest)
    have hrestclean : ∀ kl ∈ rest, ∀ p ∈ kl.2, mentionsP p m = false :=
      fun kl hkl => hclean kl (List.mem_cons_of_mem _ hkl)
    simp only [List.map_cons, List.nodup_cons] at hkeys
    by_cases ha : a = k
    · subst ha
      have hrestk : ∀ kl ∈ rest, kl.1 ≠ a := by
        intro kl hkl he
        exact hkeys.1 (he ▸ List.mem_map_of_mem Prod.fst hkl)
      rw [putOperation_cons_hit _ _ _ _ hrestk]
      have hnotmem : Payload.one m ∉ l := by
        intro hmem
        have := hheadclean _ hmem
        simp [mentionsP] at this
      have hpadd : addIfAbsent l (Payload.one m) = l ++ [Payload.one m] := by
        rw [addIfAbsent, if_neg hnotmem]
      rw [hpadd, List.foldl_cons]
      have hstep : removeStep m acc (a, l ++ [Payload.one m]) =
          (acc.1 ++ [(a, l)], acc.2 ++ [m]) := by
        simp [removeStep, hk, pyRemoveOne_last _ _ hnotmem]
      rw [hstep, fold_removeStep_clean m rest hrestclean, ensureKey_cons_hit]
      simp
    · rw [putOperation_cons_miss _ _ _ _ _ ha, List.foldl_cons,
          removeStep_clean_single m acc a l hheadclean,
          ih hkeys.2 hrestclean, ensureKey_cons_miss _ _ _ _ ha]
      simp

theorem removeFromOperations_rename_spec (st : BState)
    (ops : List (OpKind × List Payload)) (i j m : Nat)
    (hops : st.operations = putOperation ops OpKind.rename (Payload.pair i j))
    (hm : m = i ∨ m = j)
    (hkeys : (ops.map Prod.fst).Nodup)
    (hclean : ∀ kl ∈ ops, ∀ p ∈ kl.2, mentionsP p m = false) :
    removeFromOperations st m =
      { st with operations := ensureKey ops OpKind.rename,
                conflicts := setSolved (setSolved st.conflicts i false) j false } := by
  rw [removeFromOperations, hops,
      fold_remove_put_rename m i j hm ops hkeys hclean ([], [])]
  simp

theorem removeFromOperations_one_spec (st : BState)
    (ops : List (OpKind × List Payload)) (k : OpKind) (m : Nat)
    (hk : k ≠ OpKind.rename)
    (hops : st.operations = putOperation ops k (Payload.one m))
    (hkeys : (ops.map Prod.fst).Nodup)
    (hclean : ∀ kl ∈ ops, ∀ p ∈ kl.2, mentionsP p m = false) :
    removeFromOperations st m =
      { st with operations := ensureKey ops k,
                conflicts := setSolved st.conflicts m false } := by
  rw [removeFromOperations, hops,
      fold_remove_put_one m k hk ops hkeys hclean ([], [])]
  simp

theorem splitOnSpace_no_space (s : Str) (h : ' ' ∉ s) : splitOnSpace s = [s] := by
  induction s with
  | nil => rfl
  | cons c t ih =>
    have hc : ¬c = ' ' := fun he => h (he ▸ List.mem_cons_self c t)
    have ht : ' ' ∉ t := fun hm => h (List.mem_cons_of_mem c hm)
    simp [splitOnSpace, ih ht, hc]

theorem getNames_literal (cs : List Conflict) (status : List Status) (nm : Str)
    (hsp : ' ' ∉ nm) (hkw : specialKeyword nm = none) (hst : '*' ∉ nm) :
    getNames cs nm status = [nm] := by
  rw [getNames, splitOnSpace_no_space nm hsp]
  simp [getNamesStep, hkw, hst]

theorem add_dimension_literal (st : BState) (x : Str)
    (hsp : ' ' ∉ x) (hkw : specialKeyword x = none) (hst : '*' ∉ x) :
    add_dimension st x =
      match markAs st x [Status.new, Status.changed] true with
      | none => Except.error ()
      | some (st', i) =>
        Except.ok { st' with
          operations := putOperation st'.operations OpKind.add (Payload.one i) } := by
  rw [add_dimension, do_basic, getNames_literal st.conflicts _ x hsp hkw hst]
  cases h : markAs st x [Status.new, Status.changed] true with
  | none => simp [List.foldlM, h]
  | some p =>
    obtain ⟨st', i⟩ := p
    simp [List.foldlM, h]

theorem remove_dimension_literal (st : BState) (x : Str)
    (hsp : ' ' ∉ x) (hkw : specialKeyword x = none) (hst : '*' ∉ x) :
    remove_dimension st x =
      match markAs st x [Status.missing] true with
      | none => Except.error ()
      | some (st', i) =>
        Except.ok { st' with
          operations := putOperation st'.operations OpKind.remove (Payload.one i) } := by
  rw [remove_dimension, do_basic, getNames_literal st.conflicts _ x hsp hkw hst]
  cases h : markAs st x [Status.missing] true with
  | none => simp [List.foldlM, h]
  | some p =>
    obtain ⟨st', i⟩ := p
    simp [List.foldlM, h]

theorem reset_dimension_literal (st : BState) (x : Str)
    (hsp : ' ' ∉ x) (hkw : specialKeyword x = none) (hst : '*' ∉ x) :
    reset_dimension st x =
      match markAs st x [Status.missing, Status.new, Status.changed] false with
      | none => Except.error ()
      | some (st', i) => Except.ok (removeFromOperations st' i) := by
  rw [reset_dimension, getNames_literal st.conflicts _ x hsp hkw hst]
  cases h : markAs st x [Status.missing, Status.new, Status.changed] false with
  | none => simp [List.foldlM, h]
  | some p =>
    obtain ⟨st', i⟩ := p
    simp [List.foldlM, h]

theorem countOcc_eq_zero {α : Type} [DecidableEq α] (x : α) (l : List α) :
    countOcc x l = 0 ↔ x ∉ l := by
  induction l with
  | nil => simp [countOcc]
  | cons y t ih =>
    by_cases h : y = x
    · simp [countOcc, h]
    · simp [countOcc, h, ih]
      exact fun _ he => h he.symm

theorem map_put_fst (ops : List (OpKind × List Payload)) (k : OpKind)
    (p : Payload) :
    (ops.map fun kl =>
        if kl.1 = k then (kl.1, addIfAbsent kl.2 p) else kl).map Prod.fst =
      ops.map Prod.fst := by
  induction ops with
  | nil => rfl
  | cons a t ih =>
    obtain ⟨a1, a2⟩ := a
    by_cases ha : a1 = k <;> simp [ha, ih]

theorem lookupKind_none_iff (ops : List (OpKind × List Payload)) (k : OpKind) :
    lookupKind ops k = none ↔ k ∉ ops.map Prod.fst := by
  induction ops with
  | nil => simp [lookupKind]
  | cons a t ih =>
    obtain ⟨a1, a2⟩ := a
    by_cases ha : a1 = k
    · simp [lookupKind, ha]
    · simp [lookupKind, ha, ih]
      exact fun _ he => ha he.symm

theorem keys_putOperation (ops : List (OpKind × List Payload)) (k : OpKind)
    (p : Payload) (hkeys : (ops.map Prod.fst).Nodup) :
    ((putOperation ops k p).map Prod.fst).Nodup := by
  rw [putOperation, map_put_fst, ensureKey]
  by_cases h : (lookupKind ops k).isSome
  · rw [if_pos h]; exact hkeys
  · rw [if_neg h]
    rw [Option.not_isSome_iff_eq_none, lookupKind_none_iff] at h
    simp [List.nodup_append, hkeys, h]

theorem entriesOf_cons_miss (a : OpKind) (l : List Payload)
    (rest : List (OpKind × List Payload)) (k : OpKind) (ha : a ≠ k) :
    entriesOf ((a, l) :: rest) k = entriesOf rest k := by
  simp [entriesOf, lookupKind, ha]

theorem putOperation_already (ops : List (OpKind × List Payload)) (k : OpKind)
    (p : Payload) (hkeys : (ops.map Prod.fst).Nodup)
    (hp : p ∈ entriesOf ops k) : putOperation ops k p = ops := by
  induction ops with
  | nil => simp [entriesOf, lookupKind] at hp
  | cons kl rest ih =>
    obtain ⟨a, l⟩ := kl
    simp only [List.map_cons, List.nodup_cons] at hkeys
    by_cases ha : a = k
    · subst ha
      rw [entriesOf] at hp
      simp [lookupKind] at hp
      have hrestk : ∀ kl ∈ rest, kl.1 ≠ a := by
        intro kl hkl he
        exact hkeys.1 (he ▸ List.mem_map_of_mem Prod.fst hkl)
      rw [putOperation_cons_hit _ _ _ _ hrestk, addIfAbsent, if_pos hp]
    · rw [entriesOf_cons_miss _ _ _ _ ha] at hp
      rw [putOperation_cons_miss _ _ _ _ _ ha, ih hkeys.2 hp]

theorem mem_addIfAbsent (l : List Payload) (p : Payload) :
    p ∈ addIfAbsent l p := by
  rw [addIfAbsent]
  split
  · assumption
  · simp

/-- C4: for a conflict-bearing literal name x, calling add_dimension twice
queues exactly one 'add' ledger entry for x's conflict and the second call
is a no-op: a payload is appended only when an identical payload is not
already queued under the kind. -/
theorem C4_add_idempotent (st : BState) (x : Str) (i : Nat)
    (hsp : ' ' ∉ x) (hkw : specialKeyword x = none) (hst : '*' ∉ x)
    (hfind : findConflictIdx [Status.new, Status.changed] x st.conflicts = some i)
    (hkeys : (st.operations.map Prod.fst).Nodup)
    (hcount : countOcc (Payload.one i) (entriesOf st.operations OpKind.add) = 0) :
    ∃ st₁, add_dimension st x = Except.ok st₁ ∧
      add_dimension st₁ x = Except.ok st₁ ∧
      countOcc (Payload.one i) (entriesOf st₁.operations OpKind.add) = 1 := by
  refine ⟨{ st with
      conflicts := setSolved st.conflicts i true
      operations := putOperation st.operations OpKind.add (Payload.one i) },
    ?_, ?_, ?_⟩
  · rw [add_dimension_literal st x hsp hkw hst, markAs, hfind]
  · rw [add_dimension_literal _ x hsp hkw hst, markAs]
    simp only [findConflictIdx_setSolved, hfind]
    rw [setSolved_setSolved]
    have hmem : Payload.one i ∈
        entriesOf (putOperation st.operations OpKind.add (Payload.one i))
          OpKind.add := by
      rw [entriesOf_putOperation, if_pos rfl]
      exact mem_addIfAbsent _ _
    rw [putOperation_already _ _ _ (keys_putOperation _ _ _ hkeys) hmem]
  · rw [entriesOf_putOperation, if_pos rfl, addIfAbsent,
        if_neg ((countOcc_eq_zero _ _).mp hcount), countOcc_append, hcount]
    simp [countOcc]

/-- Builder state for the C4 witness: one 'new' conflict named /x. -/
def stW4 : BState :=
  ⟨[], [], [⟨Status.new, ⟨['/', 'x'], 0⟩, false⟩], []⟩

/-- Witness for C4 at a concrete state: the hypotheses hold and adding the
dimension twice leaves exactly one queued 'add' entry. -/
theorem C4_add_idempotent_witness :
    findConflictIdx [Status.new, Status.changed] ['x'] stW4.conflicts = some 0 ∧
    ∃ st₁, add_dimension stW4 ['x'] = Except.ok st₁ ∧
      add_dimension st₁ ['x'] = Except.ok st₁ ∧
      countOcc (Payload.one 0) (entriesOf st₁.operations OpKind.add) = 1 :=
  ⟨by decide,
   C4_add_idempotent stW4 ['x'] 0 (by decide) (by decide) (by decide)
     (by decide) (by decide) (by decide)⟩

/-- C3: for a literal name x bearing an unresolved 'new' or 'changed'
conflict with no queued ledger entry, add_dimension(x) followed by
reset_dimension(x) restores the resolved flag to false and removes the 'add'
ledger entry, returning the conflict list and the per-kind ledger entries to
their values before the add call. -/
theorem C3_add_reset_roundtrip (st : BState) (x : Str) (i : Nat) (ci : Conflict)
    (hsp : ' ' ∉ x) (hkw : specialKeyword x = none) (hst : '*' ∉ x)
    (hnd : (st.conflicts.map (fun c => c.dimension.name)).Nodup)
    (hkeys : (st.operations.map Prod.fst).Nodup)
    (hi : st.conflicts[i]? = some ci)
    (hname : ci.dimension.name = '/' :: x)
    (hstatus : ci.status = Status.new ∨ ci.status = Status.changed)
    (hsolved : ci.is_solved = false)
    (hclean : ∀ kl ∈ st.operations, ∀ p ∈ kl.2, mentionsP p i = false) :
    ∃ st₁ st₂, add_dimension st x = Except.ok st₁ ∧
      reset_dimension st₁ x = Except.ok st₂ ∧
      st₂.conflicts = st.conflicts ∧
      (∀ k, entriesOf st₂.operations k = entriesOf st.operations k) := by
  have hstm : ci.status ∈ [Status.new, Status.changed] := by
    rcases hstatus with h | h <;> simp [h]
  have hfind := findConflictIdx_nodup [Status.new, Status.changed] x
    st.conflicts i ci hnd hi hname hstm
  have hstm3 : ci.status ∈ [Status.missing, Status.new, Status.changed] := by
    rcases hstatus with h | h <;> simp [h]
  have hfind3 := findConflictIdx_nodup
    [Status.missing, Status.new, Status.changed] x st.conflicts i ci hnd hi
    hname hstm3
  refine ⟨{ st with
      conflicts := setSolved st.conflicts i true
      operations := putOperation st.operations OpKind.add (Payload.one i) },
    { st with operations := ensureKey st.operations OpKind.add },
    ?_, ?_, rfl, fun k => entriesOf_ensureKey st.operations OpKind.add k⟩
  · rw [add_dimension_literal st x hsp hkw hst, markAs, hfind]
  · rw [reset_dimension_literal _ x hsp hkw hst, markAs]
    simp only [findConflictIdx_setSolved, hfind3]
    rw [removeFromOperations_one_spec
        { st with
            conflicts := setSolved (setSolved st.conflicts i true) i false
            operations := putOperation st.operations OpKind.add (Payload.one i) }
        st.operations OpKind.add i (by decide) rfl hkeys hclean]
    have hc : setSolved (setSolved (setSolved st.conflicts i true) i false)
        i false = st.conflicts := by
      rw [setSolved_setSolved, setSolved_setSolved]
      exact setSolved_eq_self st.conflicts i false ci hi hsolved
    simp [hc]

/-- Witness for C3 at a concrete state: the hypotheses hold and the round
trip restores the state. -/
theorem C3_add_reset_roundtrip_witness :
    stW4.conflicts[0]? = some ⟨Status.new, ⟨['/', 'x'], 0⟩, false⟩ ∧
    ∃ st₁ st₂, add_dimension stW4 ['x'] = Except.ok st₁ ∧
      reset_dimension st₁ ['x'] = Except.ok st₂ ∧
      st₂.conflicts = stW4.conflicts ∧
      (∀ k, entriesOf st₂.operations k = entriesOf stW4.operations k) :=
  ⟨by decide,
   C3_add_reset_roundtrip stW4 ['x'] 0 ⟨Status.new, ⟨['/', 'x'], 0⟩, false⟩
     (by decide) (by decide) (by decide) (by decide) (by decide) (by decide)
     (by decide) (by decide) (by decide) (by decide)⟩

theorem mem_of_mem_entriesOf (ops : List (OpKind × List Payload)) (k : OpKind)
    (p : Payload) (hp : p ∈ entriesOf ops k) :
    ∃ kl ∈ ops, kl.1 = k ∧ p ∈ kl.2 := by
  induction ops with
  | nil => simp [entriesOf, lookupKind] at hp
  | cons kl rest ih =>
    obtain ⟨a, l⟩ := kl
    by_cases ha : a = k
    · subst ha
      have : entriesOf ((a, l) :: rest) a = l := by simp [entriesOf, lookupKind]
      rw [this] at hp
      exact ⟨(a, l), List.mem_cons_self _ rest, rfl, hp⟩
    · rw [entriesOf_cons_miss _ _ _ _ ha] at hp
      obtain ⟨kl, hkl, hk, hpk⟩ := ih hp
      exact ⟨kl, List.mem_cons_of_mem _ hkl, hk, hpk⟩

/-- C2: rename_dimension on a 'missing' old name and a 'new' new name marks
both conflicts resolved and queues a single 'rename' pair entry; a
subsequent reset_dimension on either literal name marks both conflicts
unresolved again and drops the pair entry, leaving every ledger kind's
entries as before the rename. -/
theorem C2_rename_reset_atomic (st : BState) (i j : Nat) (ci cj : Conflict)
    (oldN newN : Str)
    (hnd : (st.conflicts.map (fun c => c.dimension.name)).Nodup)
    (hkeys : (st.operations.map Prod.fst).Nodup)
    (hi : st.conflicts[i]? = some ci) (hj : st.conflicts[j]? = some cj)
    (hci : ci.status = Status.missing) (hcj : cj.status = Status.new)
    (hni : ci.dimension.name = '/' :: oldN)
    (hnj : cj.dimension.name = '/' :: newN)
    (hspo : ' ' ∉ oldN) (hkwo : specialKeyword oldN = none) (hsto : '*' ∉ oldN)
    (hspn : ' ' ∉ newN) (hkwn : specialKeyword newN = none) (hstn : '*' ∉ newN)
    (hclean : ∀ kl ∈ st.operations, ∀ p ∈ kl.2,
      mentionsP p i = false ∧ mentionsP p j = false) :
    ∃ st₁, rename_dimension st oldN newN = Except.ok st₁ ∧
      st₁.conflicts[i]? = some { ci with is_solved := true } ∧
      st₁.conflicts[j]? = some { cj with is_solved := true } ∧
      countOcc (Payload.pair i j) (entriesOf st₁.operations OpKind.rename) = 1 ∧
      (∃ st₂, reset_dimension st₁ oldN = Except.ok st₂ ∧
        st₂.conflicts[i]? = some { ci with is_solved := false } ∧
        st₂.conflicts[j]? = some { cj with is_solved := false } ∧
        ∀ k, entriesOf st₂.operations k = entriesOf st.operations k) ∧
      (∃ st₂, reset_dimension st₁ newN = Except.ok st₂ ∧
        st₂.conflicts[i]? = some { ci with is_solved := false } ∧
        st₂.conflicts[j]? = some { cj with is_solved := false } ∧
        ∀ k, entriesOf st₂.operations k = entriesOf st.operations k) := by
  have hij : i ≠ j := by
    intro h
    rw [h, hj] at hi
    injection hi with h'
    rw [h'] at hcj
    rw [hci] at hcj
    exact absurd hcj (by decide)
  have hji : j ≠ i := Ne.symm hij
  have hfo : findConflictIdx [Status.missing] oldN st.conflicts = some i :=
    findConflictIdx_nodup _ _ _ i ci hnd hi hni (by simp [hci])
  have hfn : findConflictIdx [Status.new] newN st.conflicts = some j :=
    findConflictIdx_nodup _ _ _ j cj hnd hj hnj (by simp [hcj])
  have hfoAll : findConflictIdx [Status.missing, Status.new, Status.changed]
      oldN st.conflicts = some i :=
    findConflictIdx_nodup _ _ _ i ci hnd hi hni (by simp [hci])
  have hfnAll : findConflictIdx [Status.missing, Status.new, Status.changed]
      newN st.conflicts = some j :=
    findConflictIdx_nodup _ _ _ j cj hnd hj hnj (by simp [hcj])
  have hpairmem : Payload.pair i j ∉ entriesOf st.operations OpKind.rename := by
    intro hmem
    obtain ⟨kl, hkl, _, hpk⟩ := mem_of_mem_entriesOf _ _ _ hmem
    have := (hclean kl hkl _ hpk).1
    simp [mentionsP] at this
  have hcleani : ∀ kl ∈ st.operations, ∀ p ∈ kl.2, mentionsP p i = false :=
    fun kl hkl p hp => (hclean kl hkl p hp).1
  have hcleanj : ∀ kl ∈ st.operations, ∀ p ∈ kl.2, mentionsP p j = false :=
    fun kl hkl p hp => (hclean kl hkl p hp).2
  refine ⟨{ st with
      conflicts := setSolved (setSolved st.conflicts i true) j true
      operations := putOperation st.operations OpKind.rename (Payload.pair i j) },
    ?_, ?_, ?_, ?_, ?_, ?_⟩
  · simp only [rename_dimension, hfo, hfn]
  · simp [setSolved_getElem?, hij, hi]
  · simp [setSolved_getElem?, hji, hj]
  · rw [entriesOf_putOperation, if_pos rfl, addIfAbsent, if_neg hpairmem,
        countOcc_append, (countOcc_eq_zero _ _).mpr hpairmem]
    simp [countOcc]
  · refine ⟨{ st with
        conflicts := setSolved (setSolved (setSolved (setSolved (setSolved
          st.conflicts i true) j true) i false) i false) j false
        operations := ensureKey st.operations OpKind.rename },
      ?_, ?_, ?_, ?_⟩
    · rw [reset_dimension_literal _ oldN hspo hkwo hsto, markAs]
      simp only [findConflictIdx_setSolved, hfoAll]
      rw [removeFromOperations_rename_spec
          { st with
              conflicts := setSolved (setSolved (setSolved st.conflicts i true)
                j true) i false
              operations := putOperation st.operations OpKind.rename
                (Payload.pair i j) }
          st.operations i j i rfl (Or.inl rfl) hkeys hcleani]
    · simp [setSolved_getElem?, hij, hji, hi]
    · simp [setSolved_getElem?, hij, hji, hj]
    · exact fun k => entriesOf_ensureKey st.operations OpKind.rename k
  · refine ⟨{ st with
        conflicts := setSolved (setSolved (setSolved (setSolved (setSolved
          st.conflicts i true) j true) j false) i false) j false
        operations := ensureKey st.operations OpKind.rename },
      ?_, ?_, ?_, ?_⟩
    · rw [reset_dimension_literal _ newN hspn hkwn hstn, markAs]
      simp only [findConflictIdx_setSolved, hfnAll]
      rw [removeFromOperations_rename_spec
          { st with
              conflicts := setSolved (setSolved (setSolved st.conflicts i true)
                j true) j false
              operations := putOperation st.operations OpKind.rename
                (Payload.pair i j) }
          st.operations i j j rfl (Or.inr rfl) hkeys hcleanj]
    · simp [setSolved_getElem?, hij, hji, hi]
    · simp [setSolved_getElem?, hij, hji, hj]
    · exact fun k => entriesOf_ensureKey st.operations OpKind.rename k

/-- Builder state for the C2 witness: a 'missing' conflict /b and a 'new'
conflict /n, empty ledger. -/
def stW2 : BState :=
  ⟨[], [],
   [⟨Status.missing, ⟨['/', 'b'], 1⟩, false⟩,
    ⟨Status.new, ⟨['/', 'n'], 2⟩, false⟩], []⟩

/-- Witness for C2 at a concrete state: renaming b to n resolves both
conflicts and queues one pair; resetting either side un-resolves both and
drops the pair. -/
theorem C2_rename_reset_atomic_witness :
    (stW2.conflicts.map (fun c => c.dimension.name)).Nodup ∧
    ∃ st₁, rename_dimension stW2 ['b'] ['n'] = Except.ok st₁ ∧
      st₁.conflicts[0]? = some ⟨Status.missing, ⟨['/', 'b'], 1⟩, true⟩ ∧
      st₁.conflicts[1]? = some ⟨Status.new, ⟨['/', 'n'], 2⟩, true⟩ ∧
      countOcc (Payload.pair 0 1) (entriesOf st₁.operations OpKind.rename) = 1 ∧
      (∃ st₂, reset_dimension st₁ ['b'] = Except.ok st₂ ∧
        st₂.conflicts[0]? = some ⟨Status.missing, ⟨['/', 'b'], 1⟩, false⟩ ∧
        st₂.conflicts[1]? = some ⟨Status.new, ⟨['/', 'n'], 2⟩, false⟩ ∧
        ∀ k, entriesOf st₂.operations k = entriesOf stW2.operations k) ∧
      (∃ st₂, reset_dimension st₁ ['n'] = Except.ok st₂ ∧
        st₂.conflicts[0]? = some ⟨Status.missing, ⟨['/', 'b'], 1⟩, false⟩ ∧
        st₂.conflicts[1]? = some ⟨Status.new, ⟨['/', 'n'], 2⟩, false⟩ ∧
        ∀ k, entriesOf st₂.operations k = entriesOf stW2.operations k) :=
  ⟨by decide,
   C2_rename_reset_atomic stW2 0 1 ⟨Status.missing, ⟨['/', 'b'], 1⟩, false⟩
     ⟨Status.new, ⟨['/', 'n'], 2⟩, false⟩ ['b'] ['n']
     (by decide) (by decide) (by decide) (by decide) (by decide) (by decide)
     (by decide) (by decide) (by decide) (by decide) (by decide) (by decide)
     (by decide) (by decide) (by decide)⟩

/-- C5: the claim says reset_dimension un-resolves the conflict of each
expanded name; but `reset_dimension` passes the raw selector `arg` to
`_mark_as` instead of the loop variable `_name` (which is unused), so a
status-class selector whose expansion yields the conflict-bearing name x
raises a lookup error instead of un-resolving x's conflict. -/
theorem C5_reset_selector_bug :
    getNames stW4.conflicts kwNew [Status.missing, Status.new, Status.changed] =
      [['x']] ∧
    reset_dimension stW4 kwNew = Except.error () := by
  constructor
  · decide
  · rfl

/-- A literal selector: not a status-class keyword and without a wildcard. -/
def isLit (s : Str) : Bool :=
  (specialKeyword s).isNone && decide ('*' ∉ s)

/-- Expansion of a non-literal selector: a keyword expands to all names of
its status, anything containing a wildcard expands by prefix and status. -/
def expandSel (cs : List Conflict) (status : List Status) (s : Str) :
    List Str :=
  match specialKeyword s with
  | some st => extendSpecial cs st
  | none => extendWildcard cs s status

/-- Modelled from the spec: the spec describes `_get_names` as mapping the
selector list to the concatenation of each selector's independent expansion,
a literal expanding to itself. -/
def getNamesConcatSpec (cs : List Conflict) (name : Str)
    (status : List Status) : List Str :=
  (splitOnSpace name).flatMap fun s =>
    if isLit s then [s] else expandSel cs status s

/-- C6 counterexample: on the selector list '~new y' over a single 'new'
conflict /x, the code returns only [y] while the claimed concatenation of
independent expansions is [x, y]: a literal selector discards the
accumulated expansions of earlier selectors. -/
theorem C6_getNames_counterexample :
    getNames stW4.conflicts (kwNew ++ ' ' :: ['y'])
        [Status.missing, Status.new, Status.changed] = [['y']] ∧
    getNamesConcatSpec stW4.conflicts (kwNew ++ ' ' :: ['y'])
        [Status.missing, Status.new, Status.changed] = [['x'], ['y']] ∧
    getNames stW4.conflicts (kwNew ++ ' ' :: ['y'])
        [Status.missing, Status.new, Status.changed] ≠
      getNamesConcatSpec stW4.conflicts (kwNew ++ ' ' :: ['y'])
        [Status.missing, Status.new, Status.changed] := by
  refine ⟨by decide, by decide, by decide⟩

theorem getNamesStep_nonlit (cs : List Conflict) (status : List Status)
    (names : List Str) (s : Str) (h : isLit s = false) :
    getNamesStep cs status names s = names ++ expandSel cs status s := by
  cases hkw : specialKeyword s with
  | some st => simp [getNamesStep, expandSel, hkw]
  | none =>
    rw [isLit, hkw] at h
    simp at h
    simp [getNamesStep, expandSel, hkw, h]

theorem getNamesStep_lit (cs : List Conflict) (status : List Status)
    (names : List Str) (s : Str) (h : isLit s = true) :
    getNamesStep cs status names s = [s] := by
  rw [isLit] at h
  simp at h
  simp [getNamesStep, h.1, h.2]

theorem foldl_getNames_nonlit (cs : List Conflict) (status : List Status)
    (sels : List Str) (h : ∀ s ∈ sels, isLit s = false) :
    ∀ acc, sels.foldl (getNamesStep cs status) acc =
      acc ++ sels.flatMap (expandSel cs status) := by
  induction sels with
  | nil => intro acc; simp
  | cons s rest ih =>
    intro acc
    rw [List.foldl_cons,
        getNamesStep_nonlit cs status acc s (h s (List.mem_cons_self s rest)),
        ih (fun s' hs' => h s' (List.mem_cons_of_mem s hs'))]
    simp

/-- C6 amended: the name-expansion function folds over the space-separated
selectors: keyword and wildcard selectors append their expansion to the
accumulated names, but a literal selector resets the accumulator to exactly
itself; hence the result is the concatenation of the expansions of the
selectors after the last literal, preceded by that literal (or the
concatenation of all selectors' expansions when no literal occurs), with
duplicates preserved in order. -/
theorem C6_getNames_amended (cs : List Conflict) (status : List Status) :
    (∀ sel, (∀ s ∈ splitOnSpace sel, isLit s = false) →
      getNames cs sel status =
        (splitOnSpace sel).flatMap (expandSel cs status)) ∧
    (∀ sel pre lit post, splitOnSpace sel = pre ++ lit :: post →
      isLit lit = true → (∀ s ∈ post, isLit s = false) →
      getNames cs sel status =
        lit :: post.flatMap (expandSel cs status)) := by
  constructor
  · intro sel h
    rw [getNames, foldl_getNames_nonlit cs status _ h]
    simp
  · intro sel pre lit post hsplit hlit hpost
    rw [getNames, hsplit, List.foldl_append, List.foldl_cons,
        getNamesStep_lit cs status _ lit hlit,
        foldl_getNames_nonlit cs status _ hpost]
    simp

/-- Witness for C6 amended: on selector list 'a ~new' the literal a resets
the accumulator and the trailing keyword appends x. -/
theorem C6_getNames_amended_witness :
    splitOnSpace ('a' :: ' ' :: kwNew) = [] ++ ['a'] :: [kwNew] ∧
    getNames stW4.conflicts ('a' :: ' ' :: kwNew)
        [Status.missing, Status.new, Status.changed] = [['a'], ['x']] :=
  ⟨by decide,
   (C6_getNames_amended stW4.conflicts
       [Status.missing, Status.new, Status.changed]).2
     ('a' :: ' ' :: kwNew) [] ['a'] [kwNew] (by decide) (by decide) (by decide)⟩

/-- Scenario state for C7: conflicts changed(/lr) and missing(/batch). -/
def stScn : BState :=
  ⟨[], [],
   [⟨Status.changed, ⟨['/', 'l', 'r'], 1⟩, false⟩,
    ⟨Status.missing, ⟨['/', 'b', 'a', 't', 'c', 'h'], 2⟩, false⟩], []⟩

/-- C7: every resolution call referencing a name with no conflict of the
required status fails (the index-based lookup raises, modelled as an error
result); in particular, with conflicts changed(lr) and missing(batch) only,
renaming batch to newbatch fails because no 'new'-status conflict named
newbatch exists. -/
theorem C7_conflict_not_found :
    (∀ (st : BState) (oldN newN : Str),
      (findConflictIdx [Status.missing] oldN st.conflicts = none ∨
       findConflictIdx [Status.new] newN st.conflicts = none) →
      rename_dimension st oldN newN = Except.error ()) ∧
    (∀ (st : BState) (x : Str), ' ' ∉ x → specialKeyword x = none → '*' ∉ x →
      findConflictIdx [Status.new, Status.changed] x st.conflicts = none →
      add_dimension st x = Except.error ()) ∧
    (∀ (st : BState) (x : Str), ' ' ∉ x → specialKeyword x = none → '*' ∉ x →
      findConflictIdx [Status.missing] x st.conflicts = none →
      remove_dimension st x = Except.error ()) ∧
    rename_dimension stScn ['b', 'a', 't', 'c', 'h']
      ['n', 'e', 'w', 'b', 'a', 't', 'c', 'h'] = Except.error () := by
  refine ⟨?_, ?_, ?_, ?_⟩
  · intro st oldN newN h
    rcases h with h | h
    · simp only [rename_dimension, h]
    · cases hfo : findConflictIdx [Status.missing] oldN st.conflicts with
      | none => simp only [rename_dimension, hfo]
      | some i => simp only [rename_dimension, hfo, h]
  · intro st x hsp hkw hst h
    rw [add_dimension_literal st x hsp hkw hst, markAs, h]
  · intro st x hsp hkw hst h
    rw [remove_dimension_literal st x hsp hkw hst, markAs, h]
  · rfl

/-- Empty builder state for the C7 witness. -/
def stEmptyW : BState := ⟨[], [], [], []⟩

/-- Witness for C7: with no conflicts at all, rename and add both fail. -/
theorem C7_conflict_not_found_witness :
    rename_dimension stEmptyW ['q'] ['r'] = Except.error () ∧
    add_dimension stEmptyW ['q'] = Except.error () :=
  ⟨C7_conflict_not_found.1 stEmptyW ['q'] ['r'] (Or.inl (by decide)),
   C7_conflict_not_found.2.1 stEmptyW ['q'] (by decide) (by decide) (by decide)
     (by decide)⟩

/-- Ledger state for C9: one resolved 'changed' conflict queued under 'add'. -/
def stW9 : BState :=
  ⟨[], [], [⟨Status.changed, ⟨['/', 'l', 'r'], 1⟩, true⟩],
   [(OpKind.add, [Payload.one 0])]⟩

/-- C9: the loop of create_adaptors builds one factory result per ledger
entry (dispatched on the entry's kind and applied to its payload), but the
function has no return statement, so every call returns None instead of the
built sequence; the conflict list and ledger are left untouched (the
embedding is a pure function of the state).  At the concrete one-entry
ledger the built list has length one and the call still yields none. -/
theorem C9_create_adaptors_missing_return :
    (∀ st : BState, create_adaptors st = none) ∧
    (∀ st : BState, (adaptorsBuilt st).length =
      (st.operations.map fun kl => kl.2.length).sum) ∧
    (adaptorsBuilt stW9).length = 1 ∧
    create_adaptors stW9 = none := by
  refine ⟨fun st => rfl, fun st => ?_, rfl, rfl⟩
  rw [adaptorsBuilt]
  induction st.operations with
  | nil => rfl
  | cons kl rest ih => simp [ih]

theorem findName_none_iff (s : Space) (n : Str) :
    findName s n = none ↔ containsName s n = false := by
  constructor
  · intro h
    rw [findName, List.find?_eq_none] at h
    rw [containsName_eq_false]
    intro d hd
    have := h d hd
    simpa using this
  · intro h
    rw [findName, List.find?_eq_none]
    intro d hd
    have := (containsName_eq_false s n).mp h d hd
    simpa using this

/-- C10: get_old_dimension_value returns the parent-space dimension exactly
when the name is a key of the parent space and None otherwise; it is a total
pure function of the builder state (no exception, no mutation). -/
theorem C10_get_old_dimension_value (st : BState) (n : Str) :
    get_old_dimension_value st n = findName st.experiment_space n ∧
    (get_old_dimension_value st n = none ↔
      containsName st.experiment_space n = false) ∧
    (∀ d, get_old_dimension_value st n = some d →
      d ∈ st.experiment_space ∧ d.name = n) := by
  have h1 : get_old_dimension_value st n = findName st.experiment_space n := by
    rw [get_old_dimension_value]
    cases h : containsName st.experiment_space n with
    | true => simp
    | false =>
      rw [if_neg (by simp [h])]
      exact ((findName_none_iff st.experiment_space n).mpr h).symm
  refine ⟨h1, ?_, ?_⟩
  · rw [h1]
    exact findName_none_iff st.experiment_space n
  · intro d hd
    rw [h1] at hd
    exact findName_some st.experiment_space n d hd

/-- Witness for C10: at a concrete builder, a present name returns its
dimension with the right properties and an absent name returns None. -/
theorem C10_get_old_dimension_value_witness :
    get_old_dimension_value ⟨wExp, [], [], []⟩ ['/', 'l', 'r'] =
      some ⟨['/', 'l', 'r'], 1⟩ ∧
    (⟨['/', 'l', 'r'], 1⟩ : Dimension) ∈
      (⟨wExp, [], [], []⟩ : BState).experiment_space ∧
    get_old_dimension_value ⟨wExp, [], [], []⟩ ['z'] = none :=
  ⟨by decide,
   ((C10_get_old_dimension_value ⟨wExp, [], [], []⟩ ['/', 'l', 'r']).2.2
     ⟨['/', 'l', 'r'], 1⟩ (by decide)).1,
   by decide⟩

/-- C8 counterexample: both arguments contain exactly one '~+' token, yet
the final list keeps the second argument unmodified at its position: the
index lookup finds the earlier argument (already rewritten to an equal
string) and rewrites that one instead. -/
theorem C8_interpret_counterexample :
    (hasSub2 '~' '+' ['a', '~', '+'] = true ∧
     hasSub2 '~' '-' ['a', '~', '+'] = false ∧
     hasSub2 '~' '>' ['a', '~', '+'] = false) ∧
    interpretCommandline [['a', '~', '+', '+'], ['a', '~', '+']] =
      some (⟨[['a', '~', '+', '+'], ['a', '~', '+']], [], []⟩,
            [['a', '~'], ['a', '~', '+']]) ∧
    [['a', '~'], ['a', '~', '+']] ≠
      ([['a', '~', '+', '+'], ['a', '~', '+']] : List Str).map rwArg := by
  decide

theorem hasTok_other_false (arg : Str) (t t' : OpTok)
    (hone : ∀ t₁ t₂ : OpTok, hasTok t₁ arg = true → hasTok t₂ arg = true →
      t₁ = t₂)
    (ht : hasTok t arg = true) (hne : t' ≠ t) : hasTok t' arg = false := by
  cases h2 : hasTok t' arg
  · rfl
  · exact absurd (hone t' t h2 ht) hne

theorem rwArg_no_tok (arg : Str) (h : ∀ t, hasTok t arg = false) :
    rwArg arg = arg := by
  have hp : hasSub2 '~' '+' arg = false := h OpTok.plus
  have hm : hasSub2 '~' '-' arg = false := h OpTok.minus
  have ha : hasSub2 '~' '>' arg = false := h OpTok.arrow
  simp [rwArg, hp, hm, ha]

theorem kwFold_noTok (arg : Str) (h : ∀ t, hasTok t arg = false)
    (acc : CLBuffers × List Str) :
    tokList.foldlM (kwStep arg) acc = some acc := by
  have hp : hasSub2 '~' '+' arg = false := h OpTok.plus
  have hm : hasSub2 '~' '-' arg = false := h OpTok.minus
  have ha : hasSub2 '~' '>' arg = false := h OpTok.arrow
  simp [tokList, List.foldlM, kwStep, hasTok, tokChars, hp, hm, ha]

theorem idxOfStr_first (A B : List Str) (a : Str) (hA : a ∉ A) :
    idxOfStr (A ++ a :: B) a = some A.length := by
  induction A with
  | nil => simp [idxOfStr]
  | cons s t ih =>
    have hs : ¬s = a := fun he => hA (he ▸ List.mem_cons_self s t)
    have ht : a ∉ t := fun hm => hA (List.mem_cons_of_mem s hm)
    simp [idxOfStr, hs, ih ht]

theorem set_append (A : List Str) (b : Str) (B : List Str) (v : Str) :
    (A ++ b :: B).set A.length v = A ++ v :: B := by
  induction A with
  | nil => rfl
  | cons a t ih => simp [List.set, ih]

theorem getElem?_append_len {α : Type} (A : List α) (b : α) (B : List α) :
    (A ++ b :: B)[A.length]? = some b := by
  induction A with
  | nil => simp
  | cons a t ih => simpa using ih

theorem kwFold_tok (arg : Str) (t : OpTok)
    (hone : ∀ t₁ t₂ : OpTok, hasTok t₁ arg = true → hasTok t₂ arg = true →
      t₁ = t₂)
    (ht : hasTok t arg = true) (bufs : CLBuffers) (A B : List Str)
    (hA : arg ∉ A) :
    tokList.foldlM (kwStep arg) (bufs, A ++ arg :: B) =
      some (bufAppend bufs t arg, A ++ rwArg arg :: B) := by
  cases t with
  | plus =>
    have hp : hasSub2 '~' '+' arg = true := ht
    have hm : hasSub2 '~' '-' arg = false :=
      hasTok_other_false arg _ OpTok.minus hone ht (by decide)
    have ha : hasSub2 '~' '>' arg = false :=
      hasTok_other_false arg _ OpTok.arrow hone ht (by decide)
    simp [tokList, List.foldlM, kwStep, hasTok, tokChars, hp, hm, ha,
          idxOfStr_first A B arg hA, set_append, rwArg, bufAppend]
  | minus =>
    have hp : hasSub2 '~' '+' arg = false :=
      hasTok_other_false arg _ OpTok.plus hone ht (by decide)
    have hm : hasSub2 '~' '-' arg = true := ht
    have ha : hasSub2 '~' '>' arg = false :=
      hasTok_other_false arg _ OpTok.arrow hone ht (by decide)
    simp [tokList, List.foldlM, kwStep, hasTok, tokChars, hp, hm, ha,
          idxOfStr_first A B arg hA, set_append, rwArg, bufAppend]
  | arrow =>
    have hp : hasSub2 '~' '+' arg = false :=
      hasTok_other_false arg _ OpTok.plus hone ht (by decide)
    have hm : hasSub2 '~' '-' arg = false :=
      hasTok_other_false arg _ OpTok.minus hone ht (by decide)
    have ha : hasSub2 '~' '>' arg = true := ht
    simp [tokList, List.foldlM, kwStep, hasTok, tokChars, hp, hm, ha,
          idxOfStr_first A B arg hA, set_append, rwArg, bufAppend]

theorem interpGo_succ_ok (n p : Nat) (acc : CLBuffers × List Str) (arg : Str)
    (acc' : CLBuffers × List Str) (hread : acc.2[p]? = some arg)
    (hfold : tokList.foldlM (kwStep arg) acc = some acc') :
    interpGo (n + 1) p acc = interpGo n (p + 1) acc' := by
  simp only [interpGo, hread, hfold]

theorem interpGo_spec (args : List Str)
    (hone : ∀ arg ∈ args, ∀ t₁ t₂ : OpTok,
      hasTok t₁ arg = true → hasTok t₂ arg = true → t₁ = t₂)
    (hclean : ∀ arg ∈ args, ∀ t t' : OpTok,
      hasTok t arg = true → hasTok t' (rwArg arg) = false)
    (rest : List Str) :
    ∀ pre bufs, args = pre ++ rest →
      interpGo rest.length pre.length (bufs, pre.map rwArg ++ rest) =
        some (⟨bufs.plusBuf ++ rest.filter (hasTok OpTok.plus),
               bufs.minusBuf ++ rest.filter (hasTok OpTok.minus),
               bufs.arrowBuf ++ rest.filter (hasTok OpTok.arrow)⟩,
              (pre ++ rest).map rwArg) := by
  induction rest with
  | nil =>
    intro pre bufs heq
    simp [interpGo]
  | cons arg rest' ih =>
    intro pre bufs heq
    have hargmem : arg ∈ args := by
      rw [heq]
      exact List.mem_append_right _ (List.mem_cons_self _ _)
    have hread : (pre.map rwArg ++ arg :: rest')[pre.length]? = some arg := by
      have := getElem?_append_len (pre.map rwArg) arg rest'
      rwa [List.length_map] at this
    by_cases htok : ∃ t, hasTok t arg = true
    · obtain ⟨t, ht⟩ := htok
      have hA : arg ∉ pre.map rwArg := by
        intro hmem
        rw [List.mem_map] at hmem
        obtain ⟨q, hq, hrw⟩ := hmem
        have hqmem : q ∈ args := by
          rw [heq]
          exact List.mem_append_left _ hq
        by_cases hqtok : ∃ tq, hasTok tq q = true
        · obtain ⟨tq, htq⟩ := hqtok
          have hfalse := hclean q hqmem tq t htq
          rw [hrw, ht] at hfalse
          exact absurd hfalse (by decide)
        · have hnone : ∀ tq, hasTok tq q = false := by
            intro tq
            cases h2 : hasTok tq q
            · rfl
            · exact absurd ⟨tq, h2⟩ hqtok
          rw [rwArg_no_tok q hnone] at hrw
          rw [hrw] at hnone
          rw [hnone t] at ht
          exact absurd ht (by decide)
      have hfold := kwFold_tok arg t (hone arg hargmem) ht bufs
        (pre.map rwArg) rest' hA
      rw [List.length_cons,
          interpGo_succ_ok rest'.length pre.length _ arg _ hread hfold]
      have hlist : pre.map rwArg ++ rwArg arg :: rest' =
          (pre ++ [arg]).map rwArg ++ rest' := by simp
      have hlen : pre.length + 1 = (pre ++ [arg]).length := by simp
      rw [hlist, hlen,
          ih (pre ++ [arg]) (bufAppend bufs t arg) (by rw [heq]; simp)]
      have hothers := fun t' hne =>
        hasTok_other_false arg t t' (hone arg hargmem) ht hne
      cases t with
      | plus =>
        simp [bufAppend, ht, hothers OpTok.minus (by decide),
              hothers OpTok.arrow (by decide)]
      | minus =>
        simp [bufAppend, ht, hothers OpTok.plus (by decide),
              hothers OpTok.arrow (by decide)]
      | arrow =>
        simp [bufAppend, ht, hothers OpTok.plus (by decide),
              hothers OpTok.minus (by decide)]
    · have hnone : ∀ t, hasTok t arg = false := by
        intro t
        cases h2 : hasTok t arg
        · rfl
        · exact absurd ⟨t, h2⟩ htok
      have hfold := kwFold_noTok arg hnone (bufs, pre.map rwArg ++ arg :: rest')
      rw [List.length_cons,
          interpGo_succ_ok rest'.length pre.length _ arg _ hread hfold]
      have hlist : pre.map rwArg ++ arg :: rest' =
          (pre ++ [arg]).map rwArg ++ rest' := by
        simp [rwArg_no_tok arg hnone]
      have hlen : pre.length + 1 = (pre ++ [arg]).length := by simp
      rw [hlist, hlen, ih (pre ++ [arg]) bufs (by rw [heq]; simp)]
      simp [hnone OpTok.plus, hnone OpTok.minus, hnone OpTok.arrow]

/-- C8 amended: for every candidate argument list in which each argument
contains occurrences of at most one operator token and no argument's
operator-stripped form itself contains an operator token, construction
appends each operator-bearing argument unmodified, in order, to that
operator's instruction buffer and replaces the argument in place by the same
string with the operator substring replaced by '~', leaving arguments
without operators unchanged and preserving the list's order.  (Without the
stripped-form condition the in-place index lookup can rewrite an earlier
equal argument instead, as the counterexample shows.) -/
theorem C8_interpret_amended (args : List Str)
    (hone : ∀ arg ∈ args, ∀ t₁ t₂ : OpTok,
      hasTok t₁ arg = true → hasTok t₂ arg = true → t₁ = t₂)
    (hclean : ∀ arg ∈ args, ∀ t t' : OpTok,
      hasTok t arg = true → hasTok t' (rwArg arg) = false) :
    interpretCommandline args =
      some (⟨args.filter (hasTok OpTok.plus), args.filter (hasTok OpTok.minus),
             args.filter (hasTok OpTok.arrow)⟩, args.map rwArg) := by
  have h := interpGo_spec args hone hclean args [] ⟨[], [], []⟩ rfl
  simpa [interpretCommandline] using h

/-- Arguments for the C8 witness: a plain argument and one add-operator
argument. -/
def argsW8 : List Str := [['a'], ['b', '~', '+']]

/-- Witness for C8 amended at a concrete argument list. -/
theorem C8_interpret_amended_witness :
    interpretCommandline argsW8 =
      some (⟨[['b', '~', '+']], [], []⟩, [['a'], ['b', '~']]) :=
  C8_interpret_amended argsW8 (by decide) (by decide)

end Orion
